import Mathlib

/-!
Shallow embedding of `src/update_crypto_data.py`: a batch job that discovers
USD-quoted trading pairs on an exchange, paginates daily OHLC history per
pair, merges the fetched rows into an existing CSV dataset, deduplicates on
the key (pair, date) keeping the last occurrence, sorts by (pair, date) and
writes the result back.

External effects are modelled as explicit inputs: the pair-listing HTTP
response, the per-pair sequence of OHLC HTTP responses, the CSV file
contents, and the current clock. The `while True` pagination loop is run
against a finite list of responses; `none` marks a run that would keep
requesting past the supplied responses.
-/

namespace KrakenData

set_option maxRecDepth 40000

/-- Constant `DAYS_OF_HISTORY = 730` (src line 9). -/
def DAYS_OF_HISTORY : Int := 730

/-- Constant `KRAKEN_MAX_RESULTS = 720`, the per-request candle cap (src line 10). -/
def KRAKEN_MAX_RESULTS : Nat := 720

def USD_SUFFIX : String := "USD"

def DOT_D : String := ".d"

def SECONDS_PER_DAY : Int := 86400

/-- Does `pre` begin the list `s`? (Python `str.startswith` on char lists.) -/
def chBegins : List Char → List Char → Bool
  | [], _ => true
  | _ :: _, [] => false
  | a :: pre, b :: s => a = b && chBegins pre s

/-- Does `pat` occur as a contiguous run inside `s`? (Python `in` on strings.) -/
def chHasSub (pat : List Char) : List Char → Bool
  | [] => pat.isEmpty
  | c :: rest => chBegins pat (c :: rest) || chHasSub pat rest

/-- Does string `s` end with `suf`? (Python `str.endswith`.) -/
def strEnds (s suf : String) : Bool :=
  chBegins suf.toList.reverse s.toList.reverse

/-- Does string `s` contain `pat` as a substring? (Python `pat in s`.) -/
def strHasSub (s pat : String) : Bool := chHasSub pat.toList s.toList

/-- The body of the Kraken `AssetPairs` JSON response: the `error` list and
the keys of the `result` mapping, in mapping order. -/
structure PairsResponse where
  error : List String
  result : List String
deriving DecidableEq

def apiErrorMsg : String := "Kraken API error"

/-- Function `get_usd_pairs` (src lines 12-27). The HTTP interaction is the input:
`none` models a `requests.exceptions.RequestException` (network failure or
non-2xx status), which the handler catches, logging and returning `[]`.
On a response whose `error` list is non-empty the code executes
`raise Exception(...)`; a plain `Exception` is not a `RequestException`, so
the `except` clause does not catch it and it propagates — modelled as
`Except.error`. Otherwise the pair names are filtered to those ending in
the literal `USD` and not containing the substring `.d`.
-/
def get_usd_pairs (resp : Option PairsResponse) : Except String (List String) :=
  match resp with
  | none => Except.ok []
  | some r =>
    if r.error ≠ [] then Except.error apiErrorMsg
    else Except.ok (r.result.filter fun p => strEnds p USD_SUFFIX && !(strHasSub p DOT_D))

/-- One OHLC candle as returned by the API: `[time, open, high, low, close,
vwap, volume, count]` (src line 109 names the columns). -/
structure Candle where
  time : Int
  op : Rat
  hi : Rat
  lo : Rat
  close : Rat
  vwap : Rat
  vol : Rat
  cnt : Nat
deriving DecidableEq

/-- One HTTP exchange of the OHLC pagination loop: a transport error
(`RequestException`), or a JSON body with its `error` list, the candle
array under the pair key, and the server `last` cursor. -/
inductive OhlcApiResult where
  | transportError
  | payload (err : List String) (candles : List Candle) (lastC : Int)
deriving DecidableEq

def respCandles : OhlcApiResult → List Candle
  | .transportError => []
  | .payload _ cs _ => cs

/-- A page response that makes the loop continue: no error, non-empty, and
not shorter than `KRAKEN_MAX_RESULTS`. -/
def isFullPage : OhlcApiResult → Bool
  | .transportError => false
  | .payload err cs _ => err = [] && !(cs = []) && !(cs.length < KRAKEN_MAX_RESULTS)

/-- A response the loop treats as an error: transport failure, or a
non-empty API `error` list. -/
def isErrorResp : OhlcApiResult → Bool
  | .transportError => true
  | .payload err _ _ => !(err = [])

/-- Result of `get_ohlc_data`: accumulated candles plus, for each request
issued, the `since` parameter it carried (`none` when omitted because
`since_timestamp` was falsy). -/
structure FetchOut where
  candles : List Candle
  reqs : List (Option Int)
deriving DecidableEq

/-- The `since` parameter of one request: omitted iff `since_timestamp` is
`0` (Python truthiness, src lines 39-40). -/
def reqParam (s : Int) : Option Int := if s = 0 then none else some s

/-- The `while True` loop of `get_ohlc_data` (src lines 37-71), one iteration
per response consumed. State: the current `since_timestamp`, the
accumulator, and the trace of issued requests. Breaks: transport error,
API error list non-empty, empty candle array, or a page shorter than
`KRAKEN_MAX_RESULTS`; otherwise the cursor becomes the server `last` value
and the loop continues. `none` when the responses run out with the loop
still going.
-/
def ohlcGo : List OhlcApiResult → Int → List Candle → List (Option Int) → Option FetchOut
  | [], _, _, _ => none
  | resp :: rest, sinceTs, acc, reqs =>
    match resp with
    | .transportError => some ⟨acc, reqs ++ [reqParam sinceTs]⟩
    | .payload err candles lastC =>
      if err ≠ [] then some ⟨acc, reqs ++ [reqParam sinceTs]⟩
      else if candles = [] then some ⟨acc, reqs ++ [reqParam sinceTs]⟩
      else if candles.length < KRAKEN_MAX_RESULTS then
        some ⟨acc ++ candles, reqs ++ [reqParam sinceTs]⟩
      else ohlcGo rest lastC (acc ++ candles) (reqs ++ [reqParam sinceTs])

/-- Function `get_ohlc_data(pair, since)` (src lines 29-73), abstracted over the
response sequence. `since_timestamp = int(since) if since else 0`. -/
def get_ohlc_data (responses : List OhlcApiResult) (since : Option Int) : Option FetchOut :=
  ohlcGo responses (since.getD 0) [] []

/-- One persisted CSV row: columns `pair, date, close` (src line 112). The
date is kept as the candle timestamp in epoch seconds. -/
structure Row where
  pair : String
  date : Int
  close : Rat
deriving DecidableEq

/-- The deduplication key, columns pair and date (src line 122). -/
def keyOf (r : Row) : String × Int := (r.pair, r.date)

/-- Strict lexicographic order on char lists by code point — the order
Python uses to compare the `pair` strings when pandas sorts. -/
def chLt : List Char → List Char → Bool
  | [], [] => false
  | [], _ :: _ => true
  | _ :: _, [] => false
  | a :: as, b :: bs => if a < b then true else if b < a then false else chLt as bs

def strLt (a b : String) : Bool := chLt a.toList b.toList

/-- Row order used by the sort on [pair, date] (src line 125):
ascending by pair, then by date. -/
def rowLE (a b : Row) : Bool :=
  strLt a.pair b.pair || (a.pair = b.pair && decide (a.date ≤ b.date))

/-- The strict part of the row order, on the key only. -/
def rowLT (a b : Row) : Prop :=
  strLt a.pair b.pair = true ∨ (a.pair = b.pair ∧ a.date < b.date)

/-- Relation form of `rowLE`. -/
def rowle (a b : Row) : Prop := rowLE a b = true

instance : DecidableRel rowle := fun a b => instDecidableEqBool (rowLE a b) true

/-- Model of the sort_values call on [pair, date] (src line 125). After deduplication
the keys are distinct, so any comparison sort produces this result. -/
def sortRows (l : List Row) : List Row := List.insertionSort rowle l

/-- Model of the drop_duplicates call on subset [pair, date] keeping the last occurrence (src line 122):
a row survives iff no later row has the same key; surviving rows keep
their relative order. -/
def dedupKeepLast : List Row → List Row
  | [] => []
  | r :: rs =>
    if rs.any fun x => keyOf x = keyOf r then dedupKeepLast rs
    else r :: dedupKeepLast rs

/-- The last row of `l` whose key is `k`, if any. -/
def lastWith : List Row → String × Int → Option Row
  | [], _ => none
  | r :: rs, k =>
    match lastWith rs k with
    | some x => some x
    | none => if keyOf r = k then some r else none

/-- Model of the timestamp of now minus `DAYS_OF_HISTORY` days
(src lines 92-93 and 101), with `now` in epoch seconds. -/
def lookbackTs (now : Int) : Int := now - DAYS_OF_HISTORY * SECONDS_PER_DAY

/-- Maximum of the date column over a non-empty frame (src line 87). -/
def maxDate : List Row → Int
  | [] => 0
  | r :: rs => rs.foldl (fun m x => max m x.date) r.date

/-- The global default starting timestamp (src lines 84-93): the maximum
date of the existing dataset when the CSV loads, else now minus the
lookback window. -/
def lastUpdateOf : Option (List Row) → Int → Int
  | none, now => lookbackTs now
  | some rows, _ => maxDate rows

/-- Per-pair starting timestamp (src lines 98-104): the full lookback
window for a pair absent from a non-empty existing dataset, else the
global default. -/
def sinceFor (existing : List Row) (now lastUpdate : Int) (p : String) : Int :=
  if existing ≠ [] ∧ ¬ existing.any (fun r => r.pair = p) then lookbackTs now
  else lastUpdate

/-- Projection of a candle frame to the columns pair, date, close, with the
date taken from the candle time and the pair filled in (src lines 109-112). -/
def projectRows (p : String) (cs : List Candle) : List Row :=
  cs.map fun c => ⟨p, c.time, c.close⟩

/-- The per-pair fetch loop of `main` (src lines 95-114): each pair is
fetched with its starting timestamp and projected to rows; an empty fetch
contributes nothing. It is `none` when the pagination of some pair outruns the
supplied responses. -/
def newData (api : String → List OhlcApiResult) (pairs : List String)
    (existing : List Row) (now lastUpdate : Int) : Option (List Row) :=
  match pairs with
  | [] => some []
  | p :: rest =>
    match get_ohlc_data (api p) (some (sinceFor existing now lastUpdate p)),
        newData api rest existing now lastUpdate with
    | some out, some tailRows => some (projectRows p out.candles ++ tailRows)
    | _, _ => none

/-- Merge, dedupe and sort (src lines 122-125): existing rows first, new
rows after, keep the last occurrence of each (pair, date) key, sort by
(pair, date). -/
def combine (existing newRows : List Row) : List Row :=
  sortRows (dedupKeepLast (existing ++ newRows))

/-- Number of rows of `l` whose key is `k`. -/
def countKey (l : List Row) (k : String × Int) : Nat :=
  (l.filter fun r => keyOf r = k).length

/-- All rows of `l` have pairwise distinct (pair, date) keys. -/
def keysDistinct (l : List Row) : Prop :=
  l.Pairwise fun a b => keyOf a ≠ keyOf b

def natTimestampMsg : String := "NaTType timestamp ValueError"

/-- Observable outcome of one run of `main`. -/
inductive MainOutcome where
  | raised (msg : String)
  | earlyExit
  | noWrite
  | wrote (ds : List Row)
deriving DecidableEq

/-- Function `main` (src lines 75-130), abstracted over the pair-listing response, the
per-pair OHLC response sequences, the CSV contents (`none` when the file
does not exist, raising `FileNotFoundError` on read) and the clock. An
uncaught exception from `get_usd_pairs` aborts the run; an empty pair list
returns early; a CSV with headers but zero rows makes
the int conversion of the maximum date raise on `NaT`; otherwise
every pair is fetched, and the merged dataset is written unless nothing
was fetched at all.
-/
def mainRun (resp : Option PairsResponse) (api : String → List OhlcApiResult)
    (file : Option (List Row)) (now : Int) : Option MainOutcome :=
  match get_usd_pairs resp with
  | .error e => some (.raised e)
  | .ok [] => some .earlyExit
  | .ok (p :: ps) =>
    match file with
    | some [] => some (.raised natTimestampMsg)
    | _ =>
      match newData api (p :: ps) (file.getD []) now (lastUpdateOf file now) with
      | none => none
      | some newRows =>
        if newRows = [] then some .noWrite
        else some (.wrote (combine (file.getD []) newRows))

/-! ### Order facts about `chLt`, `strLt`, `rowLE` -/

theorem chLt_irrefl : ∀ a : List Char, chLt a a = false := by
  intro a
  induction a with
  | nil => rfl
  | cons x xs ih => simp [chLt, ih]

theorem chLt_trans : ∀ {a b c : List Char},
    chLt a b = true → chLt b c = true → chLt a c = true := by
  intro a
  induction a with
  | nil =>
    intro b c h1 h2
    cases b <;> cases c <;> simp_all [chLt]
  | cons x xs ih =>
    intro b c h1 h2
    cases b with
    | nil => simp [chLt] at h1
    | cons y ys =>
      cases c with
      | nil => simp [chLt] at h2
      | cons z zs =>
        simp only [chLt] at h1 h2 ⊢
        by_cases hxy : x < y
        · by_cases hyz : y < z
          · simp [lt_trans hxy hyz]
          · simp only [if_neg hyz] at h2
            by_cases hzy : z < y
            · simp [if_pos hzy] at h2
            · have : y = z := le_antisymm (le_of_not_lt hzy) (le_of_not_lt hyz)
              simp [this ▸ hxy]
        · simp only [if_neg hxy] at h1
          by_cases hyx : y < x
          · simp [if_pos hyx] at h1
          · have hx : x = y := le_antisymm (le_of_not_lt hyx) (le_of_not_lt hxy)
            subst hx
            simp only [if_neg hxy] at h1
            by_cases hxz : x < z
            · simp [hxz]
            · simp only [if_neg hxz] at h2 ⊢
              by_cases hzx : z < x
              · simp [if_pos hzx] at h2
              · simp only [if_neg hzx] at h2 ⊢
                exact ih h1 h2

theorem chLt_asymm : ∀ {a b : List Char}, chLt a b = true → chLt b a = false := by
  intro a
  induction a with
  | nil =>
    intro b h
    cases b <;> simp_all [chLt]
  | cons x xs ih =>
    intro b h
    cases b with
    | nil => simp [chLt] at h
    | cons y ys =>
      simp only [chLt] at h ⊢
      by_cases hxy : x < y
      · simp [if_neg (lt_asymm hxy), if_pos hxy]
      · simp only [if_neg hxy] at h
        by_cases hyx : y < x
        · simp [if_pos hyx] at h
        · simp only [if_neg hyx] at h ⊢
          simp [if_neg hxy, ih h]

theorem chLt_conn : ∀ {a b : List Char},
    chLt a b = false → chLt b a = false → a = b := by
  intro a
  induction a with
  | nil =>
    intro b h1 _
    cases b with
    | nil => rfl
    | cons y ys => simp [chLt] at h1
  | cons x xs ih =>
    intro b h1 h2
    cases b with
    | nil => simp [chLt] at h2
    | cons y ys =>
      simp only [chLt] at h1 h2
      by_cases hxy : x < y
      · simp [if_pos hxy] at h1
      · by_cases hyx : y < x
        · simp [if_pos hyx, if_neg hxy] at h2
        · have hx : x = y := le_antisymm (le_of_not_lt hyx) (le_of_not_lt hxy)
          subst hx
          simp only [if_neg hxy] at h1 h2
          rw [ih h1 h2]

theorem strLt_trans {a b c : String} (h1 : strLt a b = true) (h2 : strLt b c = true) :
    strLt a c = true := chLt_trans h1 h2

theorem strLt_irrefl (a : String) : strLt a a = false := chLt_irrefl _

theorem strLt_asymm {a b : String} (h : strLt a b = true) : strLt b a = false :=
  chLt_asymm h

theorem strLt_conn {a b : String} (h1 : strLt a b = false) (h2 : strLt b a = false) :
    a = b := by
  have : a.toList = b.toList := chLt_conn h1 h2
  calc a = a.toList.asString := (String.asString_toList a).symm
    _ = b.toList.asString := by rw [this]
    _ = b := String.asString_toList b

instance : IsTrans Row rowle := by
  constructor
  intro a b c h1 h2
  simp only [rowle, rowLE, Bool.or_eq_true, Bool.and_eq_true, decide_eq_true_eq] at h1 h2 ⊢
  rcases h1 with h1 | ⟨e1, d1⟩ <;> rcases h2 with h2 | ⟨e2, d2⟩
  · exact Or.inl (strLt_trans h1 h2)
  · exact Or.inl (e2 ▸ h1)
  · exact Or.inl (e1 ▸ h2)
  · exact Or.inr ⟨e1.trans e2, le_trans d1 d2⟩

instance : IsTotal Row rowle := by
  constructor
  intro a b
  simp only [rowle, rowLE, Bool.or_eq_true, Bool.and_eq_true, decide_eq_true_eq]
  by_cases hab : strLt a.pair b.pair = true
  · exact Or.inl (Or.inl hab)
  · by_cases hba : strLt b.pair a.pair = true
    · exact Or.inr (Or.inl hba)
    · have e : a.pair = b.pair :=
        strLt_conn (Bool.eq_false_iff.mpr hab) (Bool.eq_false_iff.mpr hba)
      rcases le_total a.date b.date with d | d
      · exact Or.inl (Or.inr ⟨e, d⟩)
      · exact Or.inr (Or.inr ⟨e.symm, d⟩)

instance : IsAntisymm Row rowLT := by
  constructor
  intro a b h1 h2
  exfalso
  rcases h1 with h1 | ⟨e1, d1⟩ <;> rcases h2 with h2 | ⟨e2, d2⟩
  · rw [strLt_asymm h1] at h2; exact Bool.false_ne_true h2
  · rw [e2, strLt_irrefl] at h1; exact Bool.false_ne_true h1
  · rw [e1, strLt_irrefl] at h2; exact Bool.false_ne_true h2
  · exact absurd (d1.trans d2) (lt_irrefl _)

theorem rowLT_of_rowle_of_key_ne {a b : Row} (h : rowle a b) (hk : keyOf a ≠ keyOf b) :
    rowLT a b := by
  simp only [rowle, rowLE, Bool.or_eq_true, Bool.and_eq_true, decide_eq_true_eq] at h
  rcases h with h | ⟨e, d⟩
  · exact Or.inl h
  · refine Or.inr ⟨e, lt_of_le_of_ne d fun hd => hk ?_⟩
    simp [keyOf, e, hd]

/-! ### Facts about `lastWith`, `dedupKeepLast`, `sortRows`, `combine` -/

theorem lastWith_eq_none_iff {l : List Row} {k : String × Int} :
    lastWith l k = none ↔ ∀ x ∈ l, keyOf x ≠ k := by
  induction l with
  | nil => simp [lastWith]
  | cons r rs ih =>
    simp only [lastWith, List.mem_cons]
    cases h : lastWith rs k with
    | some x =>
      simp only [reduceCtorEq, false_iff, not_forall]
      have : ¬ ∀ x ∈ rs, keyOf x ≠ k := by
        rw [← ih]; simp [h]
      push_neg at this
      obtain ⟨x, hx, hk⟩ := this
      exact ⟨x, Or.inr hx, by simp [hk]⟩
    | none =>
      rw [ih] at h
      by_cases hr : keyOf r = k
      · simp only [if_pos hr, reduceCtorEq, false_iff, not_forall]
        exact ⟨r, Or.inl rfl, by simp [hr]⟩
      · simp only [if_neg hr]
        constructor
        · rintro - x (rfl | hx)
          · exact hr
          · exact h x hx
        · intro _
          trivial

theorem lastWith_isSome_of_mem {l : List Row} {r : Row} (h : r ∈ l) :
    ∃ x, lastWith l (keyOf r) = some x := by
  cases hl : lastWith l (keyOf r) with
  | some x => exact ⟨x, rfl⟩
  | none => exact absurd rfl (lastWith_eq_none_iff.mp hl r h)

theorem lastWith_mem {l : List Row} {k : String × Int} {x : Row}
    (h : lastWith l k = some x) : x ∈ l ∧ keyOf x = k := by
  induction l with
  | nil => simp [lastWith] at h
  | cons r rs ih =>
    simp only [lastWith] at h
    cases hrs : lastWith rs k with
    | some y =>
      rw [hrs] at h
      cases h
      obtain ⟨hy, hk⟩ := ih hrs
      exact ⟨List.mem_cons_of_mem _ hy, hk⟩
    | none =>
      rw [hrs] at h
      by_cases hr : keyOf r = k
      · rw [if_pos hr] at h
        cases h
        exact ⟨List.mem_cons_self _ _, hr⟩
      · rw [if_neg hr] at h
        cases h

theorem lastWith_append (l₁ l₂ : List Row) (k : String × Int) :
    lastWith (l₁ ++ l₂) k =
      match lastWith l₂ k with
      | some x => some x
      | none => lastWith l₁ k := by
  induction l₁ with
  | nil =>
    simp only [List.nil_append]
    cases lastWith l₂ k <;> simp [lastWith]
  | cons r rs ih =>
    have hc : (r :: rs) ++ l₂ = r :: (rs ++ l₂) := rfl
    rw [hc, lastWith, ih]
    cases lastWith l₂ k with
    | some x => rfl
    | none => cases h1 : lastWith rs k <;> simp [lastWith, h1]

theorem mem_dedupKeepLast {l : List Row} {r : Row} :
    r ∈ dedupKeepLast l ↔ lastWith l (keyOf r) = some r := by
  induction l with
  | nil => simp [dedupKeepLast, lastWith]
  | cons x xs ih =>
    simp only [dedupKeepLast, lastWith]
    by_cases hany : xs.any (fun y => decide (keyOf y = keyOf x)) = true
    · rw [if_pos hany]
      cases hxs : lastWith xs (keyOf r) with
      | some y => simpa [hxs] using ih
      | none =>
        rw [hxs] at ih
        rw [ih]
        simp only [reduceCtorEq, false_iff]
        by_cases hk : keyOf x = keyOf r
        · rw [if_pos hk]
          intro hc
          cases hc
          simp only [List.any_eq_true, decide_eq_true_eq] at hany
          obtain ⟨y, hy, hyk⟩ := hany
          exact lastWith_eq_none_iff.mp hxs y hy (hyk.trans hk)
        · rw [if_neg hk]; simp
    · rw [if_neg hany]
      simp only [List.any_eq_true, decide_eq_true_eq, not_exists, not_and] at hany
      push_neg at hany
      simp only [List.mem_cons]
      constructor
      · rintro (rfl | hr)
        · have hnone : lastWith xs (keyOf r) = none :=
            lastWith_eq_none_iff.mpr fun y hy => hany y hy
          rw [hnone, if_pos rfl]
        · rw [ih.mp hr]
      · intro h
        cases hxs : lastWith xs (keyOf r) with
        | some y =>
          rw [hxs] at h
          cases h
          exact Or.inr (ih.mpr hxs)
        | none =>
          rw [hxs] at h
          by_cases hk : keyOf x = keyOf r
          · rw [if_pos hk] at h
            cases h
            exact Or.inl rfl
          · rw [if_neg hk] at h
            cases h

theorem dedupKeepLast_subset {l : List Row} {r : Row} (h : r ∈ dedupKeepLast l) :
    r ∈ l :=
  (lastWith_mem (mem_dedupKeepLast.mp h)).1

theorem keysDistinct_dedupKeepLast (l : List Row) : keysDistinct (dedupKeepLast l) := by
  induction l with
  | nil => exact List.Pairwise.nil
  | cons x xs ih =>
    simp only [dedupKeepLast]
    by_cases hany : xs.any (fun y => decide (keyOf y = keyOf x)) = true
    · rw [if_pos hany]; exact ih
    · rw [if_neg hany]
      simp only [List.any_eq_true, decide_eq_true_eq, not_exists, not_and] at hany
      push_neg at hany
      exact List.Pairwise.cons
        (fun b hb => fun he => hany b (dedupKeepLast_subset hb) he.symm) ih

theorem dedupKeepLast_ne_nil {l : List Row} (h : l ≠ []) : dedupKeepLast l ≠ [] := by
  induction l with
  | nil => exact absurd rfl h
  | cons x xs ih =>
    simp only [dedupKeepLast]
    by_cases hany : xs.any (fun y => decide (keyOf y = keyOf x)) = true
    · rw [if_pos hany]
      refine ih fun hnil => ?_
      subst hnil
      simp at hany
    · rw [if_neg hany]
      simp

theorem lastWith_of_mem_keysDistinct {l : List Row} {r : Row}
    (hd : keysDistinct l) (h : r ∈ l) : lastWith l (keyOf r) = some r := by
  induction l with
  | nil => simp at h
  | cons x xs ih =>
    simp only [lastWith]
    rcases List.mem_cons.mp h with rfl | hr
    · have hnone : lastWith xs (keyOf r) = none :=
        lastWith_eq_none_iff.mpr fun y hy hk =>
          (List.pairwise_cons.mp hd).1 y hy hk.symm
      rw [hnone, if_pos rfl]
    · rw [ih (List.pairwise_cons.mp hd).2 hr]

theorem keysDistinct_of_perm {l₁ l₂ : List Row} (hp : l₁.Perm l₂)
    (h : keysDistinct l₁) : keysDistinct l₂ :=
  (hp.pairwise_iff fun hne he => hne he.symm).mp h

theorem sortRows_perm (l : List Row) : (sortRows l).Perm l :=
  List.perm_insertionSort rowle l

theorem sortRows_sorted (l : List Row) : List.Sorted rowle (sortRows l) :=
  List.sorted_insertionSort rowle l

theorem sorted_rowLT_of_keysDistinct {l : List Row}
    (hs : List.Sorted rowle l) (hd : keysDistinct l) : List.Sorted rowLT l :=
  (hs.and hd).imp fun h => rowLT_of_rowle_of_key_ne h.1 h.2

theorem keysDistinct_combine (existing newRows : List Row) :
    keysDistinct (combine existing newRows) :=
  keysDistinct_of_perm (sortRows_perm _).symm
    (keysDistinct_dedupKeepLast (existing ++ newRows))

theorem combine_sorted (existing newRows : List Row) :
    List.Sorted rowle (combine existing newRows) :=
  sortRows_sorted _

theorem mem_combine {existing newRows : List Row} {r : Row} :
    r ∈ combine existing newRows ↔
      lastWith (existing ++ newRows) (keyOf r) = some r := by
  rw [combine, (sortRows_perm _).mem_iff, mem_dedupKeepLast]

theorem combine_ne_nil {existing newRows : List Row} (h : newRows ≠ []) :
    combine existing newRows ≠ [] := by
  have h1 : existing ++ newRows ≠ [] := by
    intro hc
    exact h (List.append_eq_nil.mp hc).2
  have h2 := dedupKeepLast_ne_nil h1
  intro hc
  have := (sortRows_perm (dedupKeepLast (existing ++ newRows))).symm.length_eq
  rw [combine] at hc
  rw [hc] at this
  simp only [List.length_nil] at this
  exact h2 (List.length_eq_zero.mp this)

/-! ### The fetched candles do not depend on the starting cursor -/

theorem ohlcGo_candles_since :
    ∀ (rs : List OhlcApiResult) (s₁ s₂ : Int) (acc : List Candle)
      (reqs₁ reqs₂ : List (Option Int)),
    (ohlcGo rs s₁ acc reqs₁).map FetchOut.candles
      = (ohlcGo rs s₂ acc reqs₂).map FetchOut.candles := by
  intro rs
  induction rs with
  | nil => intro s₁ s₂ acc reqs₁ reqs₂; rfl
  | cons r rest ih =>
    intro s₁ s₂ acc reqs₁ reqs₂
    cases r with
    | transportError => rfl
    | payload err cs lastC =>
      simp only [ohlcGo]
      by_cases he : err ≠ []
      · rw [if_pos he, if_pos he]; rfl
      · rw [if_neg he, if_neg he]
        by_cases hcs : cs = []
        · rw [if_pos hcs, if_pos hcs]; rfl
        · rw [if_neg hcs, if_neg hcs]
          by_cases hlen : cs.length < KRAKEN_MAX_RESULTS
          · rw [if_pos hlen, if_pos hlen]; rfl
          · rw [if_neg hlen, if_neg hlen]
            exact ih lastC lastC (acc ++ cs) _ _

theorem get_ohlc_data_candles (rs : List OhlcApiResult) (s₁ s₂ : Option Int) :
    (get_ohlc_data rs s₁).map FetchOut.candles
      = (get_ohlc_data rs s₂).map FetchOut.candles :=
  ohlcGo_candles_since rs _ _ [] [] []

/-- Function `newData` is insensitive to the existing dataset, the clock and the
default timestamp: those only shape the `since` request parameters, never
the candles the mocked API returns. -/
theorem newData_const (api : String → List OhlcApiResult) (pairs : List String)
    (ex₁ ex₂ : List Row) (now₁ now₂ lu₁ lu₂ : Int) :
    newData api pairs ex₁ now₁ lu₁ = newData api pairs ex₂ now₂ lu₂ := by
  induction pairs with
  | nil => rfl
  | cons p rest ih =>
    simp only [newData]
    have hc := get_ohlc_data_candles (api p)
      (some (sinceFor ex₁ now₁ lu₁ p)) (some (sinceFor ex₂ now₂ lu₂ p))
    rw [ih]
    cases h₁ : get_ohlc_data (api p) (some (sinceFor ex₁ now₁ lu₁ p)) with
    | none =>
      cases h₂ : get_ohlc_data (api p) (some (sinceFor ex₂ now₂ lu₂ p)) with
      | none => rfl
      | some o₂ => rw [h₁, h₂] at hc; exact absurd hc (by simp)
    | some o₁ =>
      cases h₂ : get_ohlc_data (api p) (some (sinceFor ex₂ now₂ lu₂ p)) with
      | none => rw [h₁, h₂] at hc; exact absurd hc (by simp)
      | some o₂ =>
        rw [h₁, h₂] at hc
        have hco : o₁.candles = o₂.candles := by simpa using hc
        cases newData api rest ex₂ now₂ lu₂ with
        | none => rfl
        | some tail => simp [projectRows, hco]

/-! ### Inverting a run that wrote the dataset -/

theorem mainRun_wrote_inv {resp : Option PairsResponse}
    {api : String → List OhlcApiResult} {file : Option (List Row)} {now : Int}
    {ds : List Row}
    (h : mainRun resp api file now = some (.wrote ds)) :
    ∃ pairs newRows, get_usd_pairs resp = .ok pairs ∧ pairs ≠ [] ∧ file ≠ some [] ∧
      newData api pairs (file.getD []) now (lastUpdateOf file now) = some newRows ∧
      newRows ≠ [] ∧ ds = combine (file.getD []) newRows := by
  unfold mainRun at h
  cases hg : get_usd_pairs resp with
  | error e =>
    rw [hg] at h
    exact absurd (Option.some.inj h) fun hc => MainOutcome.noConfusion hc
  | ok pairs =>
    rw [hg] at h
    cases pairs with
    | nil => exact absurd (Option.some.inj h) fun hc => MainOutcome.noConfusion hc
    | cons p ps =>
      have hfile : file ≠ some [] := by
        intro hf
        rw [hf] at h
        exact absurd (Option.some.inj h) fun hc => MainOutcome.noConfusion hc
      have h2 :
          (match newData api (p :: ps) (file.getD []) now (lastUpdateOf file now) with
            | none => (none : Option MainOutcome)
            | some newRows =>
              if newRows = [] then some .noWrite
              else some (.wrote (combine (file.getD []) newRows))) = some (.wrote ds) := by
        cases file with
        | none => exact h
        | some rows =>
          cases rows with
          | nil => exact absurd rfl hfile
          | cons r rrows => exact h
      cases hn : newData api (p :: ps) (file.getD []) now (lastUpdateOf file now) with
      | none =>
        rw [hn] at h2
        exact Option.noConfusion h2
      | some newRows =>
        rw [hn] at h2
        have h3 : (if newRows = [] then some MainOutcome.noWrite
            else some (MainOutcome.wrote (combine (file.getD []) newRows)))
            = some (MainOutcome.wrote ds) := h2
        by_cases hne : newRows = []
        · rw [if_pos hne] at h3
          exact absurd (Option.some.inj h3) fun hc => MainOutcome.noConfusion hc
        · rw [if_neg hne] at h3
          exact ⟨p :: ps, newRows, rfl, by simp, hfile, hn, hne,
            (MainOutcome.wrote.inj (Option.some.inj h3)).symm⟩

/-! ### Idempotence of the merge -/

theorem nodup_of_keysDistinct {l : List Row} (h : keysDistinct l) : l.Nodup :=
  h.imp fun hk he => hk (congrArg keyOf he)

theorem combine_idem (ex n : List Row) : combine (combine ex n) n = combine ex n := by
  have hd1 : keysDistinct (combine ex n) := keysDistinct_combine ex n
  have hd2 : keysDistinct (combine (combine ex n) n) := keysDistinct_combine _ n
  have hmem : ∀ r, r ∈ combine (combine ex n) n ↔ r ∈ combine ex n := by
    intro r
    rw [mem_combine, lastWith_append]
    cases hn : lastWith n (keyOf r) with
    | some x =>
      rw [mem_combine, lastWith_append, hn]
    | none =>
      constructor
      · intro hl
        have hr : r ∈ combine ex n := (lastWith_mem hl).1
        exact hr
      · intro hr
        exact lastWith_of_mem_keysDistinct hd1 hr
  have hperm : (combine (combine ex n) n).Perm (combine ex n) :=
    (List.perm_ext_iff_of_nodup (nodup_of_keysDistinct hd2)
      (nodup_of_keysDistinct hd1)).mpr hmem
  exact List.eq_of_perm_of_sorted hperm
    (sorted_rowLT_of_keysDistinct (combine_sorted _ _) hd2)
    (sorted_rowLT_of_keysDistinct (combine_sorted _ _) hd1)

/-! ### Key counts -/

theorem countKey_le_one {l : List Row} (hd : keysDistinct l) (k : String × Int) :
    countKey l k ≤ 1 := by
  induction l with
  | nil => exact Nat.zero_le 1
  | cons r rs ih =>
    obtain ⟨hr, hrs⟩ := List.pairwise_cons.mp hd
    simp only [countKey, List.filter_cons]
    by_cases hk : keyOf r = k
    · have hnil : rs.filter (fun x => decide (keyOf x = k)) = [] := by
        rw [List.filter_eq_nil_iff]
        intro x hx
        simp only [decide_eq_true_eq]
        intro hxk
        exact hr x hx (hk ▸ hxk.symm ▸ rfl)
      simp [hk, hnil]
    · rw [if_neg (by simp [hk])]
      exact ih hrs

theorem countKey_pos {l : List Row} {r : Row} {k : String × Int}
    (h : r ∈ l) (hk : keyOf r = k) : 0 < countKey l k := by
  have : r ∈ l.filter fun x => decide (keyOf x = k) :=
    List.mem_filter.mpr ⟨h, by simp [hk]⟩
  have hne : l.filter (fun x => decide (keyOf x = k)) ≠ [] := by
    intro hc
    rw [hc] at this
    simp at this
  exact List.length_pos.mpr hne

theorem exists_mem_combine_of_key {ex n : List Row} {k : String × Int}
    (h : ∃ r ∈ ex ++ n, keyOf r = k) : ∃ x ∈ combine ex n, keyOf x = k := by
  obtain ⟨r, hr, hk⟩ := h
  obtain ⟨x, hx⟩ := lastWith_isSome_of_mem hr
  obtain ⟨-, hxk⟩ := lastWith_mem hx
  refine ⟨x, mem_combine.mpr ?_, by rw [hxk, hk]⟩
  rw [hxk]
  exact hx

/-- Forward evaluation of a writing run of `main`. -/
theorem mainRun_write_eval {resp : Option PairsResponse}
    {api : String → List OhlcApiResult} {file : Option (List Row)} {now : Int}
    {p : String} {ps : List String} {newRows : List Row}
    (hg : get_usd_pairs resp = Except.ok (p :: ps)) (hfile : file ≠ some [])
    (hn : newData api (p :: ps) (file.getD []) now (lastUpdateOf file now) = some newRows)
    (hne : newRows ≠ []) :
    mainRun resp api file now = some (.wrote (combine (file.getD []) newRows)) := by
  unfold mainRun
  rw [hg]
  cases file with
  | none =>
    simp only [hn, if_neg hne]
  | some rows =>
    cases rows with
    | nil => exact absurd rfl hfile
    | cons r rrows => simp only [hn, if_neg hne]

/-! ### Claims -/

/-- C1: every run that persists a dataset yields exactly one row per
(pair, date) key — the keys of the result are pairwise distinct and are
exactly the keys of the concatenation of existing and fetched rows — and
whenever a key occurs among the newly fetched rows, the persisted row for
that key is the most-recently-fetched row (last-write-wins). -/
theorem c1_dedup_invariant (resp : Option PairsResponse)
    (api : String → List OhlcApiResult) (file : Option (List Row)) (now : Int)
    (ds : List Row) (pairs : List String) (newRows : List Row)
    (h : mainRun resp api file now = some (.wrote ds))
    (hp : get_usd_pairs resp = Except.ok pairs)
    (hn : newData api pairs (file.getD []) now (lastUpdateOf file now) = some newRows) :
    keysDistinct ds ∧
    (∀ k, (∃ r ∈ ds, keyOf r = k) ↔ ∃ r ∈ file.getD [] ++ newRows, keyOf r = k) ∧
    (∀ r ∈ ds, (∃ x ∈ newRows, keyOf x = keyOf r) →
      lastWith newRows (keyOf r) = some r) := by
  obtain ⟨pairs', N, hg, hpne, hfile, hn', hne, hds⟩ := mainRun_wrote_inv h
  rw [hp] at hg
  cases Except.ok.inj hg
  rw [hn] at hn'
  cases Option.some.inj hn'
  subst hds
  refine ⟨keysDistinct_combine _ _, fun k => ⟨?_, exists_mem_combine_of_key⟩, ?_⟩
  · rintro ⟨r, hr, hk⟩
    exact ⟨r, (lastWith_mem (mem_combine.mp hr)).1, hk⟩
  · rintro r hr ⟨x, hx, hxk⟩
    have hmem := mem_combine.mp hr
    rw [lastWith_append] at hmem
    obtain ⟨y, hy⟩ := lastWith_isSome_of_mem hx
    rw [hxk] at hy
    rw [hy] at hmem
    rw [hy]
    exact hmem

/-- C1 witness: a run over an existing file sharing the key
("AUSD", 100); the persisted close is the fetched 7, not the old 1. -/
theorem c1_dedup_invariant_witness :
    keysDistinct [⟨("AUSD"), 100, 7⟩, ⟨("BUSD"), 50, 3⟩] ∧
    (∀ k, (∃ r ∈ [Row.mk ("AUSD") 100 7, Row.mk ("BUSD") 50 3], keyOf r = k) ↔
      ∃ r ∈ (some [Row.mk ("AUSD") 100 1, Row.mk ("BUSD") 50 3] : Option (List Row)).getD []
          ++ [Row.mk ("AUSD") 100 7], keyOf r = k) ∧
    (∀ r ∈ [Row.mk ("AUSD") 100 7, Row.mk ("BUSD") 50 3],
      (∃ x ∈ [Row.mk ("AUSD") 100 7], keyOf x = keyOf r) →
      lastWith [Row.mk ("AUSD") 100 7] (keyOf r) = some r) :=
  c1_dedup_invariant (some ⟨[], [("AUSD")]⟩)
    (fun _ => [.payload [] [⟨100, 1, 1, 1, 7, 1, 1, 1⟩] 100])
    (some [⟨("AUSD"), 100, 1⟩, ⟨("BUSD"), 50, 3⟩]) 0
    [⟨("AUSD"), 100, 7⟩, ⟨("BUSD"), 50, 3⟩] [("AUSD")] [⟨("AUSD"), 100, 7⟩]
    (by decide) (by rfl) (by decide)

/-- C2: every dataset the job persists is sorted ascending by
(pair, date) — weakly under `rowle`, and strictly on keys under `rowLT`
since deduplication makes keys unique. -/
theorem c2_sort_invariant (resp : Option PairsResponse)
    (api : String → List OhlcApiResult) (file : Option (List Row)) (now : Int)
    (ds : List Row) (h : mainRun resp api file now = some (.wrote ds)) :
    List.Sorted rowle ds ∧ List.Sorted rowLT ds := by
  obtain ⟨pairs, newRows, -, -, -, -, -, hds⟩ := mainRun_wrote_inv h
  subst hds
  exact ⟨combine_sorted _ _,
    sorted_rowLT_of_keysDistinct (combine_sorted _ _) (keysDistinct_combine _ _)⟩

/-- C2 witness: a two-pair run persists a dataset and it is sorted. -/
theorem c2_sort_invariant_witness :
    List.Sorted rowle [⟨("AUSD"), 100, 2⟩, ⟨("BUSD"), 50, 3⟩] ∧
    List.Sorted rowLT [⟨("AUSD"), 100, 2⟩, ⟨("BUSD"), 50, 3⟩] :=
  c2_sort_invariant (some ⟨[], [("BUSD"), ("AUSD")]⟩)
    (fun p => if p = ("AUSD") then [.payload [] [⟨100, 1, 1, 1, 2, 1, 1, 1⟩] 100]
      else [.payload [] [⟨50, 1, 1, 1, 3, 1, 1, 1⟩] 50])
    none 0 [⟨("AUSD"), 100, 2⟩, ⟨("BUSD"), 50, 3⟩] (by decide)

/-- C3: running the job a second time against the same API responses,
with the output of the first run as the existing file, writes the identical
dataset again. -/
theorem c3_idempotence (resp : Option PairsResponse)
    (api : String → List OhlcApiResult) (file : Option (List Row))
    (now now₂ : Int) (ds : List Row)
    (h : mainRun resp api file now = some (.wrote ds)) :
    mainRun resp api (some ds) now₂ = some (.wrote ds) := by
  obtain ⟨pairs, N, hg, hpne, hfile, hn, hne, hds⟩ := mainRun_wrote_inv h
  cases pairs with
  | nil => exact absurd rfl hpne
  | cons p ps =>
    have hdne : ds ≠ [] := by
      rw [hds]; exact combine_ne_nil hne
    have hfile2 : (some ds : Option (List Row)) ≠ some [] := by
      intro hc
      exact hdne (Option.some.inj hc)
    have hn2 : newData api (p :: ps) ((some ds).getD []) now₂
        (lastUpdateOf (some ds) now₂) = some N :=
      (newData_const api (p :: ps) ((some ds).getD []) (file.getD []) now₂ now
        (lastUpdateOf (some ds) now₂) (lastUpdateOf file now)).trans hn
    have heval := mainRun_write_eval hg hfile2 hn2 hne
    simp only [Option.getD_some] at heval
    rw [heval, hds, combine_idem]

/-- C3 witness: the second run over the output of the first run writes the
same single-row dataset. -/
theorem c3_idempotence_witness :
    mainRun (some ⟨[], [("AUSD")]⟩)
      (fun _ => [.payload [] [⟨100, 1, 1, 1, 7, 1, 1, 1⟩] 100])
      (some [⟨("AUSD"), 100, 7⟩]) 999 = some (.wrote [⟨("AUSD"), 100, 7⟩]) :=
  c3_idempotence (some ⟨[], [("AUSD")]⟩)
    (fun _ => [.payload [] [⟨100, 1, 1, 1, 7, 1, 1, 1⟩] 100])
    none 0 999 [⟨("AUSD"), 100, 7⟩] (by decide)

/-- C9: when pair discovery yields no instruments the run exits early; in
particular no dataset is written, whatever the file contents. -/
theorem c9_empty_discovery (resp : Option PairsResponse)
    (api : String → List OhlcApiResult) (file : Option (List Row)) (now : Int)
    (h : get_usd_pairs resp = Except.ok []) :
    mainRun resp api file now = some MainOutcome.earlyExit ∧
    ∀ ds, mainRun resp api file now ≠ some (.wrote ds) := by
  have h1 : mainRun resp api file now = some MainOutcome.earlyExit := by
    unfold mainRun
    rw [h]
  refine ⟨h1, fun ds hc => ?_⟩
  rw [h1] at hc
  exact MainOutcome.noConfusion (Option.some.inj hc)

/-- C9 witness: a transport error at discovery yields an empty pair list
and the run with a populated file exits early without writing. -/
theorem c9_empty_discovery_witness :
    mainRun none (fun _ => []) (some [⟨("AUSD"), 100, 1⟩]) 5
      = some MainOutcome.earlyExit ∧
    mainRun none (fun _ => []) (some [⟨("AUSD"), 100, 1⟩]) 5
      ≠ some (.wrote [⟨("AUSD"), 100, 1⟩]) :=
  ⟨(c9_empty_discovery none (fun _ => []) (some [⟨("AUSD"), 100, 1⟩]) 5 (by rfl)).1,
   (c9_empty_discovery none (fun _ => []) (some [⟨("AUSD"), 100, 1⟩]) 5 (by rfl)).2 _⟩

/-- C10: even when the loaded existing file itself has several rows with
one (pair, date) key, a writing run collapses each key present in
existing-rows-then-fetched-rows to exactly one row — the last
occurrence in that concatenation order. -/
theorem c10_collapse_existing_duplicates (resp : Option PairsResponse)
    (api : String → List OhlcApiResult) (ex : List Row) (now : Int)
    (ds : List Row) (pairs : List String) (newRows : List Row)
    (h : mainRun resp api (some ex) now = some (.wrote ds))
    (hp : get_usd_pairs resp = Except.ok pairs)
    (hn : newData api pairs ex now (lastUpdateOf (some ex) now) = some newRows) :
    (∀ k, (∃ r ∈ ex ++ newRows, keyOf r = k) → countKey ds k = 1) ∧
    (∀ r ∈ ds, lastWith (ex ++ newRows) (keyOf r) = some r) := by
  obtain ⟨pairs', N, hg, hpne, hfile, hn', hne, hds⟩ := mainRun_wrote_inv h
  rw [hp] at hg
  cases Except.ok.inj hg
  simp only [Option.getD_some] at hn'
  rw [hn] at hn'
  cases Option.some.inj hn'
  subst hds
  constructor
  · intro k hk
    obtain ⟨x, hx, hxk⟩ := exists_mem_combine_of_key hk
    exact Nat.le_antisymm (countKey_le_one (keysDistinct_combine _ _) k)
      (countKey_pos hx hxk)
  · intro r hr
    exact mem_combine.mp hr

/-- C10 witness: an existing file with two rows for ("AUSD", 100); the
written dataset keeps one row per key, the last in concatenation
order. -/
theorem c10_collapse_existing_duplicates_witness :
    (∀ k, (∃ r ∈ [Row.mk ("AUSD") 100 1, Row.mk ("BUSD") 50 3, Row.mk ("AUSD") 100 2]
        ++ [Row.mk ("AUSD") 200 7], keyOf r = k) →
      countKey [⟨("AUSD"), 100, 2⟩, ⟨("AUSD"), 200, 7⟩, ⟨("BUSD"), 50, 3⟩] k = 1) ∧
    (∀ r ∈ [Row.mk ("AUSD") 100 2, Row.mk ("AUSD") 200 7, Row.mk ("BUSD") 50 3],
      lastWith ([Row.mk ("AUSD") 100 1, Row.mk ("BUSD") 50 3, Row.mk ("AUSD") 100 2]
        ++ [Row.mk ("AUSD") 200 7]) (keyOf r) = some r) :=
  c10_collapse_existing_duplicates (some ⟨[], [("AUSD")]⟩)
    (fun _ => [.payload [] [⟨200, 1, 1, 1, 7, 1, 1, 1⟩] 200])
    [⟨("AUSD"), 100, 1⟩, ⟨("BUSD"), 50, 3⟩, ⟨("AUSD"), 100, 2⟩] 0
    [⟨("AUSD"), 100, 2⟩, ⟨("AUSD"), 200, 7⟩, ⟨("BUSD"), 50, 3⟩]
    [("AUSD")] [⟨("AUSD"), 200, 7⟩]
    (by decide) (by rfl) (by decide)

/-! ### Pagination step lemmas -/

theorem ohlcGo_final_page (cs : List Candle) (l : Int) (rest : List OhlcApiResult)
    (s : Int) (acc : List Candle) (reqs : List (Option Int))
    (h1 : cs ≠ []) (h2 : cs.length < KRAKEN_MAX_RESULTS) :
    ohlcGo (.payload [] cs l :: rest) s acc reqs
      = some ⟨acc ++ cs, reqs ++ [reqParam s]⟩ := by
  simp only [ohlcGo]
  rw [if_neg (by simp), if_neg h1, if_pos h2]

theorem ohlcGo_continue (cs : List Candle) (l : Int) (rest : List OhlcApiResult)
    (s : Int) (acc : List Candle) (reqs : List (Option Int))
    (h1 : cs ≠ []) (h2 : ¬ cs.length < KRAKEN_MAX_RESULTS) :
    ohlcGo (.payload [] cs l :: rest) s acc reqs
      = ohlcGo rest l (acc ++ cs) (reqs ++ [reqParam s]) := by
  simp only [ohlcGo]
  rw [if_neg (by simp), if_neg h1, if_neg h2]

theorem ohlcGo_full_pages_then_error (e : OhlcApiResult) (rest : List OhlcApiResult)
    (he : isErrorResp e = true) :
    ∀ (rs : List OhlcApiResult) (s : Int) (acc : List Candle) (reqs : List (Option Int)),
    (∀ r ∈ rs, isFullPage r = true) →
    (ohlcGo (rs ++ e :: rest) s acc reqs).map FetchOut.candles
      = some (acc ++ (rs.map respCandles).flatten) := by
  intro rs
  induction rs with
  | nil =>
    intro s acc reqs _
    cases e with
    | transportError => simp [ohlcGo, respCandles]
    | payload err cs lastC =>
      have herr : err ≠ [] := by simpa [isErrorResp] using he
      simp only [List.nil_append, ohlcGo]
      rw [if_pos herr]
      simp
  | cons r rs' ih =>
    intro s acc reqs hfull
    have hr := hfull r (List.mem_cons_self _ _)
    cases r with
    | transportError => simp [isFullPage] at hr
    | payload err cs lastC =>
      have hr' : (err = [] ∧ ¬ cs = []) ∧ KRAKEN_MAX_RESULTS ≤ cs.length := by
        simpa [isFullPage] using hr
      obtain ⟨⟨herr, hcs⟩, hlen⟩ := hr'
      subst herr
      rw [List.cons_append,
        ohlcGo_continue cs lastC (rs' ++ e :: rest) s acc reqs hcs (not_lt.mpr hlen)]
      rw [ih lastC (acc ++ cs) (reqs ++ [reqParam s])
        (fun x hx => hfull x (List.mem_cons_of_mem _ hx))]
      simp [respCandles, List.append_assoc]

theorem ohlcGo_reqs_structure :
    ∀ (rs : List OhlcApiResult) (s : Int) (acc : List Candle)
      (reqs : List (Option Int)) (o : FetchOut), ohlcGo rs s acc reqs = some o →
    ∃ suffix, o.reqs = reqs ++ suffix ∧ suffix.head? = some (reqParam s) := by
  intro rs
  induction rs with
  | nil => intro s acc reqs o h; exact Option.noConfusion h
  | cons r rest ih =>
    intro s acc reqs o h
    cases r with
    | transportError =>
      cases Option.some.inj h
      exact ⟨[reqParam s], rfl, rfl⟩
    | payload err cs lastC =>
      by_cases herr : err ≠ []
      · simp only [ohlcGo] at h
        rw [if_pos herr] at h
        cases Option.some.inj h
        exact ⟨[reqParam s], rfl, rfl⟩
      · push_neg at herr
        subst herr
        simp only [ohlcGo] at h
        rw [if_neg (by simp)] at h
        by_cases hcs : cs = []
        · rw [if_pos hcs] at h
          cases Option.some.inj h
          exact ⟨[reqParam s], rfl, rfl⟩
        · rw [if_neg hcs] at h
          by_cases hlen : cs.length < KRAKEN_MAX_RESULTS
          · rw [if_pos hlen] at h
            cases Option.some.inj h
            exact ⟨[reqParam s], rfl, rfl⟩
          · rw [if_neg hlen] at h
            obtain ⟨suffix, hsuf, hhead⟩ :=
              ih lastC (acc ++ cs) (reqs ++ [reqParam s]) o h
            exact ⟨[reqParam s] ++ suffix, by rw [hsuf, List.append_assoc], rfl⟩

/-- C4 counterexample: on an API response carrying a non-empty error
payload, `get_usd_pairs` does not return an empty sequence: the
`raise Exception(...)` is not a `RequestException`, escapes the handler,
and propagates (modelled as `Except.error`). -/
theorem c4_counterexample :
    get_usd_pairs (some ⟨[("EQuery:Unknown asset pair")], [("XXBTZUSD")]⟩)
        = Except.error apiErrorMsg ∧
    get_usd_pairs (some ⟨[("EQuery:Unknown asset pair")], [("XXBTZUSD")]⟩)
        ≠ Except.ok [] := by
  refine ⟨rfl, fun hc => ?_⟩
  exact Except.noConfusion hc

/-- C4 (amended): on a network/transport error `get_usd_pairs` returns the
empty sequence and does not raise; but on an API response with a non-empty
error payload it raises, and the exception passes its boundary uncaught. -/
theorem c4_error_paths (resp : PairsResponse) (he : resp.error ≠ []) :
    get_usd_pairs none = Except.ok [] ∧
    get_usd_pairs (some resp) = Except.error apiErrorMsg := by
  refine ⟨rfl, ?_⟩
  have hu : get_usd_pairs (some resp)
      = if resp.error ≠ [] then Except.error apiErrorMsg
        else Except.ok (resp.result.filter fun p =>
          strEnds p USD_SUFFIX && !(strHasSub p DOT_D)) := rfl
  rw [hu, if_pos he]

/-- C4 witness. -/
theorem c4_error_paths_witness :
    get_usd_pairs none = Except.ok [] ∧
    get_usd_pairs (some ⟨[("EService:Unavailable")], []⟩) = Except.error apiErrorMsg :=
  c4_error_paths ⟨[("EService:Unavailable")], []⟩ (by decide)

/-- C5: if, after any number of full pages, a page request hits a transport
error or an API-reported error, the loop stops and returns exactly the
candles accumulated from the earlier pages; and inside the per-pair
loop of `main` such a failure only fixes the contribution of that pair — the remaining
pairs are still processed. -/
theorem c5_error_keeps_accumulated (rs : List OhlcApiResult) (e : OhlcApiResult)
    (rest : List OhlcApiResult) (since : Option Int)
    (hfull : ∀ r ∈ rs, isFullPage r = true) (he : isErrorResp e = true) :
    (get_ohlc_data (rs ++ e :: rest) since).map FetchOut.candles
      = some ((rs.map respCandles).flatten) ∧
    (∀ (api : String → List OhlcApiResult) (p : String) (ps : List String)
      (ex : List Row) (now lu : Int), api p = rs ++ e :: rest →
      newData api (p :: ps) ex now lu
        = (newData api ps ex now lu).map
            fun tail => projectRows p (rs.map respCandles).flatten ++ tail) := by
  constructor
  · have h1 := ohlcGo_full_pages_then_error e rest he rs (since.getD 0) [] [] hfull
    simpa using h1
  · intro api p ps ex now lu hapi
    simp only [newData, hapi]
    have h2 : (get_ohlc_data (rs ++ e :: rest)
        (some (sinceFor ex now lu p))).map FetchOut.candles
        = some ((rs.map respCandles).flatten) := by
      have := ohlcGo_full_pages_then_error e rest he rs (sinceFor ex now lu p) [] [] hfull
      simpa using this
    cases ho : get_ohlc_data (rs ++ e :: rest) (some (sinceFor ex now lu p)) with
    | none => rw [ho] at h2; exact absurd h2 (by simp)
    | some o =>
      rw [ho] at h2
      have hoc : o.candles = (rs.map respCandles).flatten := by simpa using h2
      cases newData api ps ex now lu with
      | none => rfl
      | some tail => simp [hoc]

/-- C5 witness: one full page, then a transport error; the fetch returns
the candles of the full page, and in a two-pair run the second pair is still
fetched. -/
theorem c5_error_keeps_accumulated_witness :
    (get_ohlc_data ([.payload [] (List.replicate 720 ⟨1, 0, 0, 0, 2, 0, 0, 0⟩) 5]
        ++ OhlcApiResult.transportError :: []) (some 9)).map FetchOut.candles
      = some (([OhlcApiResult.payload [] (List.replicate 720 ⟨1, 0, 0, 0, 2, 0, 0, 0⟩) 5].map
          respCandles).flatten) ∧
    newData (fun _ => [.payload [] (List.replicate 720 ⟨1, 0, 0, 0, 2, 0, 0, 0⟩) 5]
        ++ OhlcApiResult.transportError :: []) [("AUSD")] [] 0 1
      = (newData (fun _ => [.payload [] (List.replicate 720 ⟨1, 0, 0, 0, 2, 0, 0, 0⟩) 5]
          ++ OhlcApiResult.transportError :: []) [] [] 0 1).map
          fun tail => projectRows ("AUSD")
            (([OhlcApiResult.payload [] (List.replicate 720 ⟨1, 0, 0, 0, 2, 0, 0, 0⟩) 5].map
              respCandles).flatten) ++ tail :=
  ⟨(c5_error_keeps_accumulated
      [.payload [] (List.replicate 720 ⟨1, 0, 0, 0, 2, 0, 0, 0⟩) 5]
      OhlcApiResult.transportError [] (some 9) (by decide) (by decide)).1,
   (c5_error_keeps_accumulated
      [.payload [] (List.replicate 720 ⟨1, 0, 0, 0, 2, 0, 0, 0⟩) 5]
      OhlcApiResult.transportError [] (some 9) (by decide) (by decide)).2
      _ ("AUSD") [] [] 0 1 rfl⟩

/-- C6: a non-empty error-free page ends the pagination exactly when it is
shorter than `KRAKEN_MAX_RESULTS`, appending it to the accumulator; with a
first page of exactly the cap and a shorter second page, exactly two
requests are issued and the result is the concatenation of both pages. -/
theorem c6_pagination_termination (cs p1 p2 : List Candle) (l l1 l2 : Int)
    (rest : List OhlcApiResult) (since : Option Int)
    (h1 : cs ≠ []) (h2 : cs.length < KRAKEN_MAX_RESULTS)
    (h3 : p1.length = KRAKEN_MAX_RESULTS) (h4 : p2 ≠ [])
    (h5 : p2.length < KRAKEN_MAX_RESULTS) :
    get_ohlc_data (.payload [] cs l :: rest) since
      = some ⟨cs, [reqParam (since.getD 0)]⟩ ∧
    get_ohlc_data [.payload [] p1 l1, .payload [] p2 l2] since
      = some ⟨p1 ++ p2, [reqParam (since.getD 0), reqParam l1]⟩ := by
  have h1' : p1 ≠ [] := by
    intro hc
    rw [hc] at h3
    simp [KRAKEN_MAX_RESULTS] at h3
  have hnl : ¬ p1.length < KRAKEN_MAX_RESULTS := by
    rw [h3]
    exact lt_irrefl _
  constructor
  · rw [get_ohlc_data, ohlcGo_final_page cs l rest _ [] [] h1 h2]
    simp
  · rw [get_ohlc_data,
      show ([.payload [] p1 l1, .payload [] p2 l2] : List OhlcApiResult)
        = .payload [] p1 l1 :: [.payload [] p2 l2] from rfl,
      ohlcGo_continue p1 l1 [.payload [] p2 l2] _ [] [] h1' hnl,
      ohlcGo_final_page p2 l2 [] l1 ([] ++ p1) ([] ++ [reqParam (since.getD 0)]) h4 h5]
    simp

/-- C6 witness: a 720-candle page then a 1-candle page: two requests, the
concatenation of both pages. -/
theorem c6_pagination_termination_witness :
    get_ohlc_data (.payload [] [⟨1, 0, 0, 0, 2, 0, 0, 0⟩] 5 :: []) (some 9)
      = some ⟨[⟨1, 0, 0, 0, 2, 0, 0, 0⟩], [reqParam ((some (9 : Int)).getD 0)]⟩ ∧
    get_ohlc_data [.payload [] (List.replicate 720 ⟨1, 0, 0, 0, 2, 0, 0, 0⟩) 5,
        .payload [] [⟨3, 0, 0, 0, 4, 0, 0, 0⟩] 6] (some 9)
      = some ⟨List.replicate 720 ⟨1, 0, 0, 0, 2, 0, 0, 0⟩ ++ [⟨3, 0, 0, 0, 4, 0, 0, 0⟩],
          [reqParam ((some (9 : Int)).getD 0), reqParam 5]⟩ :=
  c6_pagination_termination [⟨1, 0, 0, 0, 2, 0, 0, 0⟩]
    (List.replicate 720 ⟨1, 0, 0, 0, 2, 0, 0, 0⟩) [⟨3, 0, 0, 0, 4, 0, 0, 0⟩]
    5 5 6 [] (some 9) (by decide) (by decide) (by decide) (by decide) (by decide)

/-- C7: after a non-empty page that keeps the loop going, the cursor
passed to the next iteration is the server-reported `last` value `l`,
verbatim — independent of the own timestamps of the candles — and the next
request recorded in the trace carries `reqParam l`. -/
theorem c7_cursor_is_server_last (cs : List Candle) (l : Int)
    (rest : List OhlcApiResult) (s : Int) (acc : List Candle)
    (reqs : List (Option Int))
    (h1 : cs ≠ []) (h2 : ¬ cs.length < KRAKEN_MAX_RESULTS) :
    ohlcGo (.payload [] cs l :: rest) s acc reqs
      = ohlcGo rest l (acc ++ cs) (reqs ++ [reqParam s]) ∧
    ∀ o, ohlcGo (.payload [] cs l :: rest) s acc reqs = some o →
      ∃ suffix, o.reqs = reqs ++ [reqParam s] ++ suffix ∧
        suffix.head? = some (reqParam l) := by
  have hstep := ohlcGo_continue cs l rest s acc reqs h1 h2
  refine ⟨hstep, fun o ho => ?_⟩
  rw [hstep] at ho
  obtain ⟨suffix, hsuf, hhead⟩ :=
    ohlcGo_reqs_structure rest l (acc ++ cs) (reqs ++ [reqParam s]) o ho
  exact ⟨suffix, by rw [hsuf], hhead⟩

/-- C7 witness: the candles of the page all have timestamp 1, the server cursor
is 5; the next request carries `some 5`, not `some 1`. -/
theorem c7_cursor_is_server_last_witness :
    ohlcGo (.payload [] (List.replicate 720 ⟨1, 0, 0, 0, 2, 0, 0, 0⟩) 5
        :: [OhlcApiResult.transportError]) 9 [] []
      = ohlcGo [OhlcApiResult.transportError] 5
          ([] ++ List.replicate 720 ⟨1, 0, 0, 0, 2, 0, 0, 0⟩) ([] ++ [reqParam 9]) ∧
    ∃ suffix,
      (FetchOut.mk (List.replicate 720 ⟨1, 0, 0, 0, 2, 0, 0, 0⟩)
        [reqParam 9, reqParam 5]).reqs = [] ++ [reqParam 9] ++ suffix ∧
      suffix.head? = some (reqParam 5) :=
  ⟨(c7_cursor_is_server_last (List.replicate 720 ⟨1, 0, 0, 0, 2, 0, 0, 0⟩) 5
      [OhlcApiResult.transportError] 9 [] [] (by decide) (by decide)).1,
   (c7_cursor_is_server_last (List.replicate 720 ⟨1, 0, 0, 0, 2, 0, 0, 0⟩) 5
      [OhlcApiResult.transportError] 9 [] [] (by decide) (by decide)).2
      ⟨List.replicate 720 ⟨1, 0, 0, 0, 2, 0, 0, 0⟩, [reqParam 9, reqParam 5]⟩
      (by decide)⟩

/-- C8: in a run whose CSV is absent or has at least one row, a discovered
pair with zero rows in the existing dataset is fetched from
`lookbackTs now` (now minus the 730-day window), any other pair from the
global default; and that default is the maximum date of the existing
dataset when a file loads, else `lookbackTs now`. -/
theorem c8_new_pair_lookback (file : Option (List Row)) (now : Int) (p : String)
    (hf : file ≠ some []) :
    sinceFor (file.getD []) now (lastUpdateOf file now) p
      = (if (file.getD []).filter (fun r => r.pair = p) = []
         then lookbackTs now else lastUpdateOf file now) ∧
    (file = none → lastUpdateOf file now = lookbackTs now) ∧
    (∀ rows, file = some rows → lastUpdateOf file now = maxDate rows) := by
  refine ⟨?_, ?_, ?_⟩
  · cases file with
    | none => simp [sinceFor, lastUpdateOf]
    | some rows =>
      have hrne : rows ≠ [] := fun hc => hf (by rw [hc])
      simp only [Option.getD_some]
      by_cases hany : rows.any (fun r => decide (r.pair = p)) = true
      · have hfil : rows.filter (fun r => decide (r.pair = p)) ≠ [] := by
          simp only [ne_eq, List.filter_eq_nil_iff]
          push_neg
          obtain ⟨r, hr, hp'⟩ := List.any_eq_true.mp hany
          exact ⟨r, hr, hp'⟩
        rw [sinceFor, if_neg (fun hc => hc.2 hany), if_neg hfil]
      · have hfil : rows.filter (fun r => decide (r.pair = p)) = [] := by
          rw [List.filter_eq_nil_iff]
          intro r hr hd
          exact hany (List.any_eq_true.mpr ⟨r, hr, hd⟩)
        rw [sinceFor, if_pos ⟨hrne, hany⟩, if_pos hfil]
  · intro h
    subst h
    rfl
  · intro rows h
    subst h
    rfl

/-- C8 witness: file has a row for `AUSD` only; `BUSD` gets the lookback
window, and `AUSD` would get the global default (the max date 100). -/
theorem c8_new_pair_lookback_witness :
    (sinceFor ((some [Row.mk ("AUSD") 100 1]).getD []) 1000
        (lastUpdateOf (some [Row.mk ("AUSD") 100 1]) 1000) ("BUSD")
      = if ((some [Row.mk ("AUSD") 100 1]).getD []).filter
            (fun r => r.pair = ("BUSD")) = []
        then lookbackTs 1000 else lastUpdateOf (some [Row.mk ("AUSD") 100 1]) 1000) ∧
    ((some [Row.mk ("AUSD") 100 1] : Option (List Row)) = none →
      lastUpdateOf (some [Row.mk ("AUSD") 100 1]) 1000 = lookbackTs 1000) ∧
    (∀ rows, (some [Row.mk ("AUSD") 100 1] : Option (List Row)) = some rows →
      lastUpdateOf (some [Row.mk ("AUSD") 100 1]) 1000 = maxDate rows) :=
  c8_new_pair_lookback (some [⟨("AUSD"), 100, 1⟩]) 1000 ("BUSD") (by decide)

end KrakenData
